import Mathlib

set_option maxHeartbeats 1000000

/-!
Verification of the media-gnome-api core against its specification.

The development shallowly embeds the four core components of the repository:
the incremental log-frame demultiplexer (src/api/src/routes/status.ts,
processLogData, and src/api/src/lib/docker.ts, demuxLogs), the status
projector (src/api/src/routes/status.ts, getCurrentStatus), the SSE
push-connection layer (SSEConnection in the sse module) and the
file-backed link store (src/api/src/lib/files.ts, FileService).

Strings are modelled as lists of characters (`Str`), byte buffers as lists
of naturals, and the wall clock (`new Date().toISOString()`) as an explicit
`now` parameter.  The sha256 content hash produced by the crypto collaborator
is modelled as an abstract function parameter `generateId`.

All definitions come first, followed by all theorems.
-/

abbrev Str := List Char

/-- Characters of the JavaScript whitespace class used by `String.trim` and
the regexp class `\s` (the members relevant to this code base). -/
def isJsWs (c : Char) : Bool :=
  c == ' ' || c == '\t' || c == '\n' || c == '\r' ||
  c == '\x0b' || c == '\x0c' || c == ' '

/-- JavaScript `String.prototype.trim`: drop whitespace from both ends. -/
def jsTrim (s : Str) : Str :=
  ((s.dropWhile isJsWs).reverse.dropWhile isJsWs).reverse

/-- JavaScript `String.prototype.split(sep)` for a one-character separator:
splitting the empty string yields one empty field, a trailing separator
yields a trailing empty field. -/
def splitOnC (sep : Char) : Str → List Str
  | [] => [[]]
  | c :: rest =>
    match splitOnC sep rest with
    | [] => [[c]]
    | l :: ls => if c = sep then [] :: l :: ls else (c :: l) :: ls

/-- The line splitter used throughout the repository: split on the newline
character. -/
def splitNl (s : Str) : List Str := splitOnC '\n' s

/-- JavaScript truthiness of an optional string: `undefined` and the empty
string are falsy, every other string is truthy. -/
def jsTruthy : Option Str → Bool
  | none => false
  | some s => !s.isEmpty

/-! ### Link store (src/api/src/lib/files.ts, class FileService)

The persisted artifact is the file content, one URL per line.  A missing
file behaves exactly like the empty content (readFile ENOENT is mapped to
the empty list / empty current content in every code path), so the model
uses the plain content string.  `generateId` abstracts
`crypto.createHash('sha256').update(url).digest('hex')`: a pure function of
the URL supplied by the crypto collaborator. -/

/-- FileService.readLinks, projected to the list of stored URLs: split the
content on newlines, trim every line, drop empty lines.  (The id attached to
each URL is `generateId url`, recomputed, never stored; the shared `addedAt`
mtime is an external observation and not part of the claims.) -/
def readLinks (content : Str) : List Str :=
  ((splitNl content).map jsTrim).filter (fun l => !l.isEmpty)

/-- Whether the content ends with a newline (`currentContent.endsWith('\n')`). -/
def endsWithNl (s : Str) : Bool := s.getLast? == some '\n'

/-- The separator inserted before appended lines:
`currentContent && !currentContent.endsWith('\n') ? '\n' : ''`. -/
def appendSep (content : Str) : Str :=
  if !content.isEmpty && !endsWithNl content then ['\n'] else []

/-- `newUrls.join('\n')`. -/
def joinNl : List Str → Str
  | [] => []
  | [u] => u
  | u :: us => u ++ '\n' :: joinNl us

/-- Result of FileService.addLink: the returned `{id, isNew}` pair plus the
resulting artifact content and whether a write (temp file + rename) was
performed. -/
structure AddResult where
  id : Str
  isNew : Bool
  content : Str
  wrote : Bool
deriving Repr, DecidableEq

/-- FileService.addLink: recompute the id, look the URL up in the parsed
current links (`links.find(link => link.url === url)`); on a hit return the
existing entry's id without writing, otherwise append `url + '\n'`
(prefixing a newline when the current content is nonempty and unterminated)
and atomically replace the artifact. -/
def addLink (generateId : Str → Str) (content url : Str) : AddResult :=
  match (readLinks content).find? (fun u => u == url) with
  | some u => ⟨generateId u, false, content, false⟩
  | none => ⟨generateId url, true, content ++ appendSep content ++ url ++ ['\n'], true⟩

/-- Result of FileService.addBulkLinks: the returned count plus the resulting
artifact content and whether a write was performed. -/
structure BulkResult where
  created : Nat
  content : Str
  wrote : Bool
deriving Repr, DecidableEq

/-- FileService.addBulkLinks: filter the input against the URLs currently
stored (`urls.filter(url => !existingUrls.has(url))`), skip the write
entirely when nothing is new, otherwise append all new lines in one
atomic rewrite and return how many were appended. -/
def addBulkLinks (content : Str) (urls : List Str) : BulkResult :=
  let existingUrls := readLinks content
  let newUrls := urls.filter (fun u => !existingUrls.contains u)
  if newUrls.isEmpty then ⟨0, content, false⟩
  else ⟨newUrls.length, content ++ appendSep content ++ joinNl newUrls ++ ['\n'], true⟩

/-- Result of FileService.removeLink: the returned found flag plus the
resulting artifact content and whether a write was performed. -/
structure RemoveResult where
  found : Bool
  content : Str
  wrote : Bool
deriving Repr, DecidableEq

/-- FileService.removeLink: recompute every stored URL's id, look the target
id up (`links.find(link => link.id === id)`); if absent return not-found
without touching the artifact, otherwise rewrite it from the URLs whose id
differs (`links.filter(link => link.id !== id)`), joined with newlines and
terminated by one, or the empty content when nothing remains. -/
def removeLink (generateId : Str → Str) (content tid : Str) : RemoveResult :=
  let links := (readLinks content).map (fun u => (generateId u, u))
  match links.find? (fun l => l.1 == tid) with
  | none => ⟨false, content, false⟩
  | some _ =>
    let remainingUrls := (links.filter (fun l => l.1 != tid)).map (fun l => l.2)
    ⟨true, if !remainingUrls.isEmpty then joinNl remainingUrls ++ ['\n'] else [], true⟩

/-- One mutating operation of the link store API. -/
inductive LinkOp where
  | add (url : Str)
  | addBulk (urls : List Str)
  | remove (tid : Str)

/-- The artifact content after one operation. -/
def applyOp (generateId : Str → Str) (content : Str) : LinkOp → Str
  | .add u => (addLink generateId content u).content
  | .addBulk us => (addBulkLinks content us).content
  | .remove tid => (removeLink generateId content tid).content

/-- The artifact content after a sequence of operations. -/
def applyOps (generateId : Str → Str) (ops : List LinkOp) (content : Str) : Str :=
  ops.foldl (fun c op => applyOp generateId c op) content

/-- A URL in the form the HTTP layer hands to the store: nonempty, free of
embedded newlines, and carrying no leading or trailing whitespace. -/
def CleanUrl (u : Str) : Prop := u ≠ [] ∧ jsTrim u = u ∧ '\n' ∉ u

instance : DecidablePred CleanUrl := fun u => by
  unfold CleanUrl; infer_instance

/-- Hygiene of one operation's input: single adds carry a clean URL, bulk
adds carry pairwise-distinct clean URLs, removals are unrestricted. -/
def OpClean : LinkOp → Prop
  | .add u => CleanUrl u
  | .addBulk us => us.Nodup ∧ ∀ u ∈ us, CleanUrl u
  | .remove _ => True

instance : DecidablePred OpClean := fun op => by
  cases op <;> · unfold OpClean; infer_instance

/-- Canonical artifact content for a list of stored URLs: one per line with
a trailing newline, or the empty content for the empty store. -/
def encodeStore : List Str → Str
  | [] => []
  | us => joinNl us ++ ['\n']

/-- The store states reachable through the FileService API from a missing or
empty artifact: some duplicate-free list of clean URLs, canonically encoded. -/
def StoreWF (content : Str) : Prop :=
  ∃ us : List Str, content = encodeStore us ∧ us.Nodup ∧ ∀ u ∈ us, CleanUrl u

/-! ### Log-frame demultiplexer
(src/api/src/routes/status.ts, processLogData; src/api/src/lib/docker.ts,
demuxLogs) -/

/-- Log level attached to a record: stderr frames become `error`, stdout
frames `info`. -/
inductive Level where
  | info
  | error
deriving Repr, DecidableEq

/-- One emitted log record (`LogEntry {ts, line, level}` in lib/types). -/
structure LogEntry where
  ts : Str
  line : Str
  level : Level
deriving Repr, DecidableEq

/-- The Unicode replacement character produced when decoding invalid UTF-8. -/
def replChar : Char := '�'

/-- Whether a byte is a UTF-8 continuation byte (0x80-0xBF). -/
def contByte (b : Nat) : Bool := 128 ≤ b && b < 192

/-- Payload of a continuation byte. -/
def contVal (b : Nat) : Nat := b % 64

/-- Worker for the UTF-8 decoder; the fuel argument only bounds the
recursion depth and is always supplied as the byte count, which each step
strictly exceeds the bytes it consumes. -/
def decodeUtf8Go : Nat → List Nat → Str
  | 0, _ => []
  | _, [] => []
  | fuel + 1, b :: rest =>
    if b < 128 then Char.ofNat b :: decodeUtf8Go fuel rest
    else if 194 ≤ b && b ≤ 223 then
      match rest with
      | [] => [replChar]
      | b2 :: r2 =>
        if contByte b2 then Char.ofNat ((b % 32) * 64 + contVal b2) :: decodeUtf8Go fuel r2
        else replChar :: decodeUtf8Go fuel rest
    else if 224 ≤ b && b ≤ 239 then
      match rest with
      | b2 :: b3 :: r3 =>
        if (contByte b2 && contByte b3 &&
            (!(b == 224) || 160 ≤ b2) && (!(b == 237) || b2 < 160)) then
          Char.ofNat ((b % 16) * 4096 + contVal b2 * 64 + contVal b3) :: decodeUtf8Go fuel r3
        else replChar :: decodeUtf8Go fuel rest
      | _ => [replChar]
    else if 240 ≤ b && b ≤ 244 then
      match rest with
      | b2 :: b3 :: b4 :: r4 =>
        if (contByte b2 && contByte b3 && contByte b4 &&
            (!(b == 240) || 144 ≤ b2) && (!(b == 244) || b2 < 144)) then
          Char.ofNat ((b % 8) * 262144 + contVal b2 * 4096 + contVal b3 * 64 + contVal b4)
            :: decodeUtf8Go fuel r4
        else replChar :: decodeUtf8Go fuel rest
      | _ => [replChar]
    else replChar :: decodeUtf8Go fuel rest

/-- Model of `Buffer.toString('utf8')`: decode a byte list into characters,
substituting the replacement character for invalid sequences. -/
def decodeUtf8 (bs : List Nat) : Str := decodeUtf8Go bs.length bs

/-- An ASCII decimal digit. -/
def isDigitC (c : Char) : Bool := '0' ≤ c && c ≤ '9'

/-- Consume exactly `n` digits, returning them and the remainder. -/
def expectDigits : Nat → Str → Option (Str × Str)
  | 0, s => some ([], s)
  | _ + 1, [] => none
  | n + 1, c :: r =>
    if isDigitC c then
      match expectDigits n r with
      | some (ds, rest) => some (c :: ds, rest)
      | none => none
    else none

/-- Consume exactly the given character. -/
def expectChar (ch : Char) : Str → Option Str
  | [] => none
  | c :: r => if c = ch then some r else none

/-- The timestamp regexp of the log framer,
`^(\d{4}-\d{2}-\d{2}T\d{2}:\d{2}:\d{2}\.\d+Z)\s+(.*)$`: on a match, return
the captured timestamp and the remainder of the line after the whitespace. -/
def matchTs (l : Str) : Option (Str × Str) := do
  let (y, r1) ← expectDigits 4 l
  let r2 ← expectChar '-' r1
  let (mo, r3) ← expectDigits 2 r2
  let r4 ← expectChar '-' r3
  let (d, r5) ← expectDigits 2 r4
  let r6 ← expectChar 'T' r5
  let (h, r7) ← expectDigits 2 r6
  let r8 ← expectChar ':' r7
  let (mi, r9) ← expectDigits 2 r8
  let r10 ← expectChar ':' r9
  let (sec, r11) ← expectDigits 2 r10
  let r12 ← expectChar '.' r11
  let frac := r12.takeWhile isDigitC
  let r13 := r12.dropWhile isDigitC
  if frac.isEmpty then none else
  do
  let r14 ← expectChar 'Z' r13
  let ws := r14.takeWhile isJsWs
  let rest := r14.dropWhile isJsWs
  if ws.isEmpty then none else
  some (y ++ '-' :: mo ++ '-' :: d ++ 'T' :: h ++ ':' :: mi ++ ':' :: sec ++ '.' :: frac
          ++ ['Z'], rest)

/-- One line of a frame payload becomes one record: extract the leading
timestamp when present, otherwise stamp the line with the processing time. -/
def processLine (now : Str) (level : Level) (line : Str) : LogEntry :=
  match matchTs line with
  | some (ts, restLine) => ⟨ts, restLine, level⟩
  | none => ⟨now, line, level⟩

/-- The payload lines that survive `.filter(line => line.trim())`: lines with
some non-whitespace content, kept untrimmed. -/
def keptLines (payload : List Nat) : List Str :=
  (splitNl (decodeUtf8 payload)).filter (fun l => !(jsTrim l).isEmpty)

/-- All records produced out of one complete frame: decode the payload, split
it on newlines, drop whitespace-only lines, build one record per line. -/
def frameRecords (now : Str) (streamType : Nat) (payload : List Nat) : List LogEntry :=
  (keptLines payload).map (processLine now (if streamType = 1 then .info else .error))

/-- Big-endian 32-bit read, `buffer.readUInt32BE`. -/
def u32be (a b c d : Nat) : Nat := ((a * 256 + b) * 256 + c) * 256 + d

/-- The frame loop shared by processLogData and demuxLogs: while the buffer
holds a full 8-byte header (byte 0 the stream tag, bytes 4-7 the big-endian
payload length) and the full payload, emit the frame's records and advance;
stop as soon as a header or payload is incomplete, returning the produced
records together with the unconsumed remainder. -/
def demuxLoop (now : Str) : List Nat → List LogEntry × List Nat
  | b0 :: b1 :: b2 :: b3 :: b4 :: b5 :: b6 :: b7 :: rest =>
    let size := u32be b4 b5 b6 b7
    if size ≤ rest.length then
      let p := demuxLoop now (rest.drop size)
      (frameRecords now b0 (rest.take size) ++ p.1, p.2)
    else ([], b0 :: b1 :: b2 :: b3 :: b4 :: b5 :: b6 :: b7 :: rest)
  | buf => ([], buf)
termination_by buf => buf.length
decreasing_by
  simp only [List.length_drop, List.length_cons]
  omega

/-- DockerService.demuxLogs: run the frame loop over one complete buffer and
return the records (the loop's leftover is discarded in the one-shot API). -/
def demuxLogs (now : Str) (buffer : List Nat) : List LogEntry :=
  (demuxLoop now buffer).1

/-- processLogData, one call of the incremental framer: append the incoming
chunk to the retained buffer, run the frame loop, keep the unprocessed
remainder as the new buffer. -/
def processLogData (now : Str) (buffer chunk : List Nat) : List LogEntry × List Nat :=
  demuxLoop now (buffer ++ chunk)

/-- Feed a sequence of chunks through the incremental framer, starting from
the given retained buffer; returns all emitted records in order and the
final retained buffer. -/
def feedAll (now : Str) : List Nat → List (List Nat) → List LogEntry × List Nat
  | buffer, [] => ([], buffer)
  | buffer, chunk :: chunks =>
    let p := processLogData now buffer chunk
    let q := feedAll now p.2 chunks
    (p.1 ++ q.1, q.2)

/-! ### Status projector (src/api/src/routes/status.ts, getCurrentStatus)

A container observation is what DockerService.getContainerInfo returns:
inspect success yields running/stopped with a health status (absent health
defaulted to the `none` value, here `noHealth`) and the engine's timestamp
strings, inspect failure yields state unknown.  The second, internal inspect
used only for the CLEAN_JOBS counter is modelled as an optional environment
list, `Option.none` when that inspect throws. -/

/-- Container state as reported by getContainerInfo. -/
inductive CState where
  | running
  | stopped
  | unknown
deriving Repr, DecidableEq

/-- Container health as reported by getContainerInfo; `noHealth` is the
`'none'` default used when the engine reports no health object. -/
inductive Health where
  | healthy
  | unhealthy
  | starting
  | noHealth
deriving Repr, DecidableEq

/-- One container observation (ContainerInfo in lib/types). -/
structure ContainerInfo where
  state : CState
  health : Health := .noHealth
  startedAt : Option Str := none
  finishedAt : Option Str := none
deriving Repr, DecidableEq

/-- Projected per-service state in a snapshot. -/
inductive UpDown where
  | up
  | down
  | unknown
deriving Repr, DecidableEq

/-- The status snapshot (Status in lib/types). -/
structure Status where
  pipeline : CState
  containerName : Str
  vpn : UpDown
  tor : UpDown
  lastRunAt : Option Str
  cleanJobs : Option Int
  version : Str
deriving Repr, DecidableEq

/-- The digit value of an ASCII digit. -/
def digitVal (c : Char) : Nat := c.toNat - '0'.toNat

/-- An ASCII hexadecimal digit. -/
def isHexDigitC (c : Char) : Bool :=
  isDigitC c || ('a' ≤ c && c ≤ 'f') || ('A' ≤ c && c ≤ 'F')

/-- The value of an ASCII hexadecimal digit. -/
def hexVal (c : Char) : Nat :=
  if isDigitC c then digitVal c
  else if 'a' ≤ c && c ≤ 'f' then c.toNat - 'a'.toNat + 10
  else c.toNat - 'A'.toNat + 10

/-- Accumulate a digit string in the given base. -/
def natOfDigits (base : Nat) (val : Char → Nat) (ds : Str) : Nat :=
  ds.foldl (fun acc c => acc * base + val c) 0

/-- Parse a maximal decimal digit run with the given sign, JavaScript
`parseInt` style: `none` models NaN. -/
def parseIntDec (sgn : Int) (s : Str) : Option Int :=
  let ds := s.takeWhile isDigitC
  if ds.isEmpty then none else some (sgn * (natOfDigits 10 digitVal ds : Nat))

/-- JavaScript `parseInt(str)` with no radix argument: skip leading
whitespace, take an optional sign, then either a `0x`/`0X` hexadecimal run
or a decimal run, ignoring any trailing characters; `none` models NaN. -/
def jsParseInt (s : Str) : Option Int :=
  let s1 := s.dropWhile isJsWs
  let signed : Int × Str :=
    match s1 with
    | '-' :: r => (-1, r)
    | '+' :: r => (1, r)
    | _ => (1, s1)
  match signed.2 with
  | '0' :: x :: r =>
    if x == 'x' || x == 'X' then
      let ds := r.takeWhile isHexDigitC
      if ds.isEmpty then none else some (signed.1 * (natOfDigits 16 hexVal ds : Nat))
    else parseIntDec signed.1 signed.2
  | _ => parseIntDec signed.1 signed.2

/-- The environment-variable key scanned for, `'CLEAN_JOBS='`. -/
def cjKey : Str := "CLEAN_JOBS=".toList

/-- Whether the pattern is a prefix of the string, `str.startsWith(pat)`. -/
def startsWithL : Str → Str → Bool
  | [], _ => true
  | _ :: _, [] => false
  | p :: ps, c :: cs => p == c && startsWithL ps cs

/-- The for-loop of getCurrentStatus over the container environment: at the
first entry starting with `CLEAN_JOBS=`, parse `envVar.split('=')[1]` and
stop (keeping no value when the parse is NaN); otherwise keep scanning. -/
def cleanJobsOfEnv : List Str → Option Int
  | [] => none
  | e :: rest =>
    if startsWithL cjKey e then jsParseInt (((splitOnC '=' e).drop 1).headD [])
    else cleanJobsOfEnv rest

/-- getCurrentStatus as a pure projection of the three container
observations, the optional pipeline environment (none when the internal
env-reading inspect throws) and the configured name and version. -/
def getCurrentStatus (pipelineInfo vpnInfo torInfo : ContainerInfo)
    (pipelineEnv : Option (List Str)) (containerName version : Str) : Status :=
  let vpnStatus : UpDown :=
    if vpnInfo.state = .running then
      if vpnInfo.health = .healthy ∨ vpnInfo.health = .noHealth then .up else .down
    else if vpnInfo.state = .stopped then .down
    else .unknown
  let torStatus : UpDown :=
    if torInfo.state = .running then .up
    else if torInfo.state = .stopped then .down
    else .unknown
  let lastRunAt : Option Str :=
    if pipelineInfo.state = .running ∧ jsTruthy pipelineInfo.startedAt then
      pipelineInfo.startedAt
    else if jsTruthy pipelineInfo.finishedAt then pipelineInfo.finishedAt
    else none
  let cleanJobs : Option Int :=
    match pipelineEnv with
    | none => none
    | some env => cleanJobsOfEnv env
  ⟨pipelineInfo.state, containerName, vpnStatus, torStatus, lastRunAt, cleanJobs, version⟩

/-- The vpn column of the spec's status table (section 4.2). -/
def vpnSpec (v : ContainerInfo) : UpDown :=
  match v.state, v.health with
  | .running, .healthy => .up
  | .running, .noHealth => .up
  | .running, .unhealthy => .down
  | .running, .starting => .down
  | .stopped, _ => .down
  | .unknown, _ => .unknown

/-- The tor column of the spec's status table (section 4.2). -/
def torSpec (t : ContainerInfo) : UpDown :=
  match t.state with
  | .running => .up
  | .stopped => .down
  | .unknown => .unknown

/-- The lastRunAt rule exactly as the claim states it: startedAt when the
pipeline runs and has one, finishedAt when the pipeline is **not** running
and has one, absent when neither condition holds. -/
def lastRunAtClaimed (p : ContainerInfo) : Option Str :=
  if p.state = .running ∧ jsTruthy p.startedAt then p.startedAt
  else if p.state ≠ .running ∧ jsTruthy p.finishedAt then p.finishedAt
  else none

/-- The amended lastRunAt rule: finishedAt is a general fallback, used
whenever the pipeline is not running-with-startedAt but a truthy finishedAt
exists. -/
def lastRunAtSpec (p : ContainerInfo) : Option Str :=
  if p.state = .running ∧ jsTruthy p.startedAt then p.startedAt
  else if jsTruthy p.finishedAt then p.finishedAt
  else none

/-- The amended cleanJobs rule, stated declaratively: look up the first
environment entry starting with `CLEAN_JOBS=`, and keep `parseInt` of the
text between the first and second `=` when it parses to an integer. -/
def cleanJobsSpec (env : List Str) : Option Int :=
  (env.find? (startsWithL cjKey)).bind (fun e => jsParseInt (((splitOnC '=' e).drop 1).headD []))

/-- The full amended status table of section 4.2 as a snapshot builder. -/
def statusSpecTable (p v t : ContainerInfo) (env : Option (List Str))
    (containerName version : Str) : Status :=
  ⟨p.state, containerName, vpnSpec v, torSpec t, lastRunAtSpec p,
    match env with
    | none => none
    | some es => cleanJobsSpec es,
    version⟩

/-! ### Streaming status state (src/api/src/routes/status.ts)

`let lastStatus: Status | null = null` lives in the router closure, shared
by every `/status/stream` connection the router ever creates.  Opening a
connection pushes one snapshot unconditionally and overwrites the shared
variable; each Docker event or 5-second tick recomputes a snapshot and
pushes it to the triggering connection only when it differs from the shared
variable (`JSON.stringify` comparison, which on this record type coincides
with structural equality). -/

/-- The router-level streaming state: the shared last-pushed snapshot and the
log of pushes, each tagged with the receiving connection's id. -/
structure StreamState where
  lastStatus : Option Status
  pushes : List (Nat × Status)
deriving Repr, DecidableEq

/-- Opening a stream: the initial snapshot is sent unconditionally and
recorded in the shared variable. -/
def openStream (st : StreamState) (conn : Nat) (s : Status) : StreamState :=
  ⟨some s, st.pushes ++ [(conn, s)]⟩

/-- One recomputation on behalf of a connection (Docker event handler or
heartbeat tick): push and update the shared variable only when the new
snapshot differs from the shared last one. -/
def recomputeStatus (st : StreamState) (conn : Nat) (s : Status) : StreamState :=
  if st.lastStatus ≠ some s then ⟨some s, st.pushes ++ [(conn, s)]⟩ else st

/-- The snapshot a given connection last received, per the push log. -/
def lastPushedTo (st : StreamState) (conn : Nat) : Option Status :=
  ((st.pushes.filter (fun p => p.1 == conn)).map (fun p => p.2)).getLast?

/-! ### SSE connection (SSEConnection in the sse module) -/

/-- Observable state of one SSEConnection: the `isClosed` flag, whether the
heartbeat interval handle exists, whether its timer is still scheduled, how
many times `clearInterval` ran on it, and how many keepalive ping frames
were written to the response. -/
structure SSEConn where
  isClosed : Bool
  heartbeatSet : Bool
  timerLive : Bool
  clears : Nat
  pings : Nat
deriving Repr, DecidableEq

/-- The state the constructor leaves a fresh connection in: open, heartbeat
interval created and scheduled. -/
def connInit : SSEConn :=
  ⟨false, true, true, 0, 0⟩

/-- SSEConnection.close: a no-op on an already-closed connection; otherwise
set the flag and clear the heartbeat interval (at most once, because the
early return guards every later call). -/
def close (c : SSEConn) : SSEConn :=
  if c.isClosed then c
  else
    ⟨true, c.heartbeatSet, false,
      c.clears + (if c.heartbeatSet then 1 else 0), c.pings⟩

/-- Iterated close. -/
def closeN : Nat → SSEConn → SSEConn
  | 0, c => c
  | n + 1, c => close (closeN n c)

/-- One firing of the heartbeat interval: nothing can fire once the timer is
cleared, and even a firing already in flight sends its ping only while the
connection is not closed. -/
def heartbeatFire (c : SSEConn) : SSEConn :=
  if c.timerLive then (if !c.isClosed then { c with pings := c.pings + 1 } else c)
  else c

/-! ### Container lifecycle (src/api/src/lib/docker.ts) -/

/-- A command issued to the container engine. -/
inductive EngineCmd where
  | start (name : Str)
  | stop (name : Str) (graceSeconds : Nat)
deriving Repr, DecidableEq

/-- DockerService.startContainer: inspect first (a failing inspect throws,
modelled as `none`); issue `container.start()` only when the inspect reports
the container not running.  The result lists the engine commands issued. -/
def startContainer (name : Str) (inspectRunning : Option Bool) : Option (List EngineCmd) :=
  match inspectRunning with
  | none => none
  | some running => some (if running then [] else [.start name])

/-- DockerService.stopContainer: inspect first; issue `container.stop({t: 10})`
only when the inspect reports the container running. -/
def stopContainer (name : Str) (inspectRunning : Option Bool) : Option (List EngineCmd) :=
  match inspectRunning with
  | none => none
  | some running => some (if running then [.stop name 10] else [])

/-! ## Theorems -/

/-! ### String helper lemmas -/

theorem splitOnC_ne_nil (sep : Char) (s : Str) : splitOnC sep s ≠ [] := by
  cases s with
  | nil => simp [splitOnC]
  | cons c rest =>
    simp only [splitOnC]
    cases h : splitOnC sep rest with
    | nil => simp
    | cons l ls =>
      by_cases hc : c = sep <;> simp [hc]

theorem splitOnC_append_sep (sep : Char) (a b : Str) (ha : sep ∉ a) :
    splitOnC sep (a ++ sep :: b) = a :: splitOnC sep b := by
  induction a with
  | nil =>
    simp only [List.nil_append, splitOnC]
    cases h : splitOnC sep b with
    | nil => exact absurd h (splitOnC_ne_nil sep b)
    | cons l ls => simp
  | cons c rest ih =>
    have hc : c ≠ sep := by
      intro h; exact ha (h ▸ List.mem_cons_self c rest)
    have hrest : sep ∉ rest := fun h => ha (List.mem_cons_of_mem c h)
    simp only [List.cons_append, splitOnC, List.append_eq]
    rw [ih hrest]
    simp [hc]

theorem mem_splitOnC_not_sep (sep : Char) (s : Str) :
    ∀ l ∈ splitOnC sep s, sep ∉ l := by
  induction s with
  | nil => intro l hl; simp [splitOnC] at hl; simp [hl]
  | cons c rest ih =>
    intro l hl
    simp only [splitOnC] at hl
    cases h : splitOnC sep rest with
    | nil => exact absurd h (splitOnC_ne_nil sep rest)
    | cons t ts =>
      rw [h] at hl
      have ht : sep ∉ t := ih t (by rw [h]; exact List.mem_cons_self t ts)
      by_cases hc : c = sep
      · simp [hc] at hl
        rcases hl with hl | hl | hl
        · simp [hl]
        · rw [hl]; exact ht
        · exact ih l (by rw [h]; exact List.mem_cons_of_mem t hl)
      · simp [hc] at hl
        rcases hl with hl | hl
        · rw [hl]
          intro hmem
          rcases List.mem_cons.mp hmem with h1 | h1
          · exact hc h1.symm
          · exact ht h1
        · exact ih l (by rw [h]; exact List.mem_cons_of_mem t hl)

theorem splitOnC_singleton_sep (sep : Char) (b : Str) :
    splitOnC sep (sep :: b) = [] :: splitOnC sep b :=
  splitOnC_append_sep sep [] b (by simp)

theorem dropWhile_idem (p : Char → Bool) (l : Str) :
    (l.dropWhile p).dropWhile p = l.dropWhile p := by
  induction l with
  | nil => simp
  | cons c r ih =>
    by_cases h : p c
    · simp [List.dropWhile_cons, h, ih]
    · simp [List.dropWhile_cons, h]

theorem dropWhile_eq_self_of_isPre (p : Char → Bool) {l t : Str}
    (hl : l.dropWhile p = l) (ht : t <+: l) : t.dropWhile p = t := by
  cases t with
  | nil => simp
  | cons c r =>
    obtain ⟨s, hs⟩ := ht
    rw [← hs] at hl
    rw [List.cons_append, List.dropWhile_cons] at hl
    by_cases h : p c
    · rw [if_pos h] at hl
      have hlen := congrArg List.length hl
      have hle : ((r ++ s).dropWhile p).length ≤ (r ++ s).length :=
        List.Sublist.length_le (List.dropWhile_sublist p)
      simp only [List.length_cons] at hlen
      omega
    · simp [List.dropWhile_cons, h]

theorem jsTrim_trailing (l : Str) :
    ((jsTrim l).reverse.dropWhile isJsWs).reverse = jsTrim l := by
  simp only [jsTrim, List.reverse_reverse, dropWhile_idem]

theorem jsTrim_isPre (l : Str) : jsTrim l <+: l.dropWhile isJsWs := by
  have h3 : ((l.dropWhile isJsWs).reverse.dropWhile isJsWs) <:+ (l.dropWhile isJsWs).reverse :=
    List.dropWhile_suffix isJsWs
  obtain ⟨t, ht⟩ := h3
  refine ⟨t.reverse, ?_⟩
  have := congrArg List.reverse ht
  simpa [jsTrim, List.reverse_append] using this

theorem jsTrim_leading (l : Str) : (jsTrim l).dropWhile isJsWs = jsTrim l :=
  dropWhile_eq_self_of_isPre isJsWs (dropWhile_idem isJsWs l) (jsTrim_isPre l)

theorem jsTrim_idem (l : Str) : jsTrim (jsTrim l) = jsTrim l := by
  show (((jsTrim l).dropWhile isJsWs).reverse.dropWhile isJsWs).reverse = jsTrim l
  rw [jsTrim_leading, jsTrim_trailing]

theorem mem_of_mem_jsTrim {c : Char} {l : Str} (h : c ∈ jsTrim l) : c ∈ l := by
  have hsub : ∀ m : Str, c ∈ m.dropWhile isJsWs → c ∈ m :=
    fun m hm => (List.dropWhile_sublist isJsWs).subset hm
  unfold jsTrim at h
  rw [List.mem_reverse] at h
  have h1 := hsub _ h
  rw [List.mem_reverse] at h1
  exact hsub _ h1

/-! ### Link store lemmas -/

theorem readLinks_clean (c : Str) : ∀ u ∈ readLinks c, CleanUrl u := by
  intro u hu
  simp only [readLinks, List.mem_filter, List.mem_map] at hu
  obtain ⟨⟨l, hl, rfl⟩, hne⟩ := hu
  refine ⟨?_, jsTrim_idem l, ?_⟩
  · intro h
    rw [h] at hne
    simp at hne
  · intro hmem
    exact mem_splitOnC_not_sep '\n' c l hl (mem_of_mem_jsTrim hmem)

theorem joinNl_cons2 (u v : Str) (t : List Str) :
    joinNl (u :: v :: t) = u ++ '\n' :: joinNl (v :: t) := by
  simp [joinNl]

theorem joinNl_append (us vs : List Str) (hus : us ≠ []) (hvs : vs ≠ []) :
    joinNl (us ++ vs) = joinNl us ++ '\n' :: joinNl vs := by
  induction us with
  | nil => exact absurd rfl hus
  | cons u us ih =>
    cases us with
    | nil =>
      cases vs with
      | nil => exact absurd rfl hvs
      | cons v vs => simp [joinNl_cons2, joinNl]
    | cons u2 us2 =>
      have hih := ih (by simp)
      simp only [List.cons_append] at hih ⊢
      rw [joinNl_cons2 u u2 (us2 ++ vs), joinNl_cons2 u u2 us2, hih]
      simp

theorem encodeStore_cons (u : Str) (us : List Str) :
    encodeStore (u :: us) = joinNl (u :: us) ++ ['\n'] := by
  simp [encodeStore]

theorem encodeStore_append (us vs : List Str) (hvs : vs ≠ []) :
    encodeStore us ++ joinNl vs ++ ['\n'] = encodeStore (us ++ vs) := by
  cases us with
  | nil =>
    cases vs with
    | nil => exact absurd rfl hvs
    | cons v vs2 => simp [encodeStore, encodeStore_cons]
  | cons u us2 =>
    cases vs with
    | nil => exact absurd rfl hvs
    | cons v vs2 =>
      have e : (u :: us2) ++ v :: vs2 = u :: (us2 ++ v :: vs2) := by simp
      rw [encodeStore_cons, e, encodeStore_cons, ← e,
        joinNl_append (u :: us2) (v :: vs2) (by simp) (by simp)]
      simp

theorem encodeStore_snoc (us : List Str) (u : Str) :
    encodeStore us ++ u ++ ['\n'] = encodeStore (us ++ [u]) := by
  have := encodeStore_append us [u] (by simp)
  simpa [joinNl] using this

theorem splitNl_joinNl (us : List Str) (hus : us ≠ [])
    (hnl : ∀ u ∈ us, '\n' ∉ u) :
    splitNl (joinNl us ++ ['\n']) = us ++ [[]] := by
  induction us with
  | nil => exact absurd rfl hus
  | cons u us ih =>
    cases us with
    | nil =>
      simp only [joinNl]
      have : u ++ ['\n'] = u ++ '\n' :: [] := by simp
      rw [this, splitNl, splitOnC_append_sep '\n' u [] (hnl u (by simp))]
      simp [splitOnC]
    | cons u2 us2 =>
      have hu : '\n' ∉ u := hnl u (by simp)
      have hrest : ∀ x ∈ u2 :: us2, '\n' ∉ x := fun x hx => hnl x (List.mem_cons_of_mem u hx)
      simp only [joinNl]
      have : (u ++ '\n' :: joinNl (u2 :: us2)) ++ ['\n']
           = u ++ '\n' :: (joinNl (u2 :: us2) ++ ['\n']) := by simp
      rw [this, splitNl, splitOnC_append_sep '\n' u _ hu]
      have ihv := ih (by simp) hrest
      rw [splitNl] at ihv
      rw [ihv]
      simp

theorem appendSep_encodeStore (us : List Str) : appendSep (encodeStore us) = [] := by
  cases us with
  | nil => rfl
  | cons u us2 =>
    rw [encodeStore_cons]
    have h1 : endsWithNl (joinNl (u :: us2) ++ ['\n']) = true := by
      simp [endsWithNl, List.getLast?_concat]
    simp [appendSep, h1]

theorem readLinks_encodeStore (us : List Str) (hclean : ∀ u ∈ us, CleanUrl u) :
    readLinks (encodeStore us) = us := by
  cases us with
  | nil => rfl
  | cons u us2 =>
    rw [encodeStore_cons]
    have hnl : ∀ x ∈ u :: us2, '\n' ∉ x := fun x hx => (hclean x hx).2.2
    have hsplit := splitNl_joinNl (u :: us2) (by simp) hnl
    unfold readLinks
    rw [hsplit]
    rw [List.map_append]
    have hmap : (u :: us2).map jsTrim = u :: us2 := by
      have := List.map_congr_left (f := jsTrim) (g := id)
        (l := u :: us2) (fun x hx => (hclean x hx).2.1)
      simpa using this
    rw [hmap]
    rw [List.filter_append]
    have hkeep : (u :: us2).filter (fun l => !l.isEmpty) = u :: us2 := by
      rw [List.filter_eq_self]
      intro x hx
      have := (hclean x hx).1
      simpa [List.isEmpty_iff] using this
    rw [hkeep]
    simp [jsTrim]

theorem addLink_id (g : Str → Str) (c u : Str) : (addLink g c u).id = g u := by
  cases hf : (readLinks c).find? (fun x => x == u) with
  | none => simp [addLink, hf]
  | some y =>
    have hy : y = u := by simpa using List.find?_some hf
    simp [addLink, hf, hy]

theorem addLink_mem (g : Str → Str) (c u : Str) (hu : u ∈ readLinks c) :
    addLink g c u = ⟨g u, false, c, false⟩ := by
  cases hf : (readLinks c).find? (fun x => x == u) with
  | none =>
    rw [List.find?_eq_none] at hf
    have := hf u hu
    simp at this
  | some y =>
    have hy : y = u := by simpa using List.find?_some hf
    simp [addLink, hf, hy]

theorem addLink_new (g : Str → Str) (c u : Str) (hu : u ∉ readLinks c) :
    addLink g c u = ⟨g u, true, c ++ appendSep c ++ u ++ ['\n'], true⟩ := by
  have hf : (readLinks c).find? (fun x => x == u) = none := by
    rw [List.find?_eq_none]
    intro x hx
    simp only [beq_iff_eq]
    intro he
    exact hu (he ▸ hx)
  simp [addLink, hf]

theorem addLink_wf (g : Str → Str) (us : List Str) (u : Str)
    (hnd : us.Nodup) (hclean : ∀ x ∈ us, CleanUrl x) (hu : CleanUrl u) :
    StoreWF (addLink g (encodeStore us) u).content := by
  by_cases hmem : u ∈ us
  · rw [addLink_mem g _ u (by rw [readLinks_encodeStore us hclean]; exact hmem)]
    exact ⟨us, rfl, hnd, hclean⟩
  · rw [addLink_new g _ u (by rw [readLinks_encodeStore us hclean]; exact hmem)]
    refine ⟨us ++ [u], ?_, ?_, ?_⟩
    · show encodeStore us ++ appendSep (encodeStore us) ++ u ++ ['\n'] = _
      rw [appendSep_encodeStore]
      simpa using encodeStore_snoc us u
    · simp [List.nodup_append, hnd, hmem]
    · intro x hx
      rcases List.mem_append.mp hx with h | h
      · exact hclean x h
      · simp at h
        rw [h]
        exact hu

theorem addBulkLinks_wf (us urls : List Str)
    (hnd : us.Nodup) (hclean : ∀ x ∈ us, CleanUrl x)
    (hand : urls.Nodup) (haclean : ∀ x ∈ urls, CleanUrl x) :
    StoreWF (addBulkLinks (encodeStore us) urls).content := by
  have hread := readLinks_encodeStore us hclean
  by_cases hempty : (urls.filter (fun x => !(readLinks (encodeStore us)).contains x)).isEmpty
  · simp only [addBulkLinks, hempty, if_true]
    exact ⟨us, rfl, hnd, hclean⟩
  · simp only [addBulkLinks, hempty, if_false]
    rw [hread] at hempty ⊢
    set newUrls := urls.filter (fun x => !us.contains x) with hnew
    have hne : newUrls ≠ [] := by
      intro h
      rw [h] at hempty
      simp at hempty
    refine ⟨us ++ newUrls, ?_, ?_, ?_⟩
    · show encodeStore us ++ appendSep (encodeStore us) ++ joinNl newUrls ++ ['\n'] = _
      rw [appendSep_encodeStore]
      rw [List.append_nil]
      exact encodeStore_append us newUrls hne
    · rw [List.nodup_append]
      refine ⟨hnd, hand.filter _, ?_⟩
      intro x hx hx2
      have hcont := (List.mem_filter.mp hx2).2
      simp [List.contains] at hcont
      exact hcont hx
    · intro x hx
      rcases List.mem_append.mp hx with h | h
      · exact hclean x h
      · exact haclean x (List.mem_filter.mp h).1

theorem remaining_eq (g : Str → Str) (tid : Str) (us : List Str) :
    ((us.map (fun u => (g u, u))).filter (fun l => l.1 != tid)).map (fun l => l.2)
      = us.filter (fun u => !(g u == tid)) := by
  induction us with
  | nil => rfl
  | cons u r ih =>
    simp only [bne] at ih ⊢
    by_cases h : (g u == tid) = true
    · simp [List.filter_cons, h, ih]
    · simp only [Bool.not_eq_true] at h
      simp [List.filter_cons, h, ih]

theorem removeLink_not_found (g : Str → Str) (c tid : Str)
    (h : ∀ u ∈ readLinks c, ¬ g u = tid) :
    removeLink g c tid = ⟨false, c, false⟩ := by
  have hf : ((readLinks c).map (fun x => (g x, x))).find? (fun l => l.1 == tid) = none := by
    rw [List.find?_eq_none]
    intro x hx
    obtain ⟨u, hu, rfl⟩ := List.mem_map.mp hx
    simpa using h u hu
  simp [removeLink, hf]

theorem removeLink_found_spec (g : Str → Str) (c tid : Str)
    (h : ∃ u ∈ readLinks c, g u = tid) :
    removeLink g c tid =
      ⟨true, encodeStore ((readLinks c).filter (fun u => !(g u == tid))), true⟩ := by
  obtain ⟨u, hu, hgu⟩ := h
  cases hf : ((readLinks c).map (fun x => (g x, x))).find? (fun l => l.1 == tid) with
  | none =>
    rw [List.find?_eq_none] at hf
    have := hf (g u, u) (List.mem_map_of_mem _ hu)
    simp [hgu] at this
  | some y =>
    simp only [removeLink, hf]
    rw [remaining_eq]
    cases hl : (readLinks c).filter (fun x => !(g x == tid)) with
    | nil => simp [encodeStore]
    | cons a t => simp [encodeStore_cons]

theorem removeLink_wf (g : Str → Str) (us : List Str) (tid : Str)
    (hnd : us.Nodup) (hclean : ∀ x ∈ us, CleanUrl x) :
    StoreWF (removeLink g (encodeStore us) tid).content := by
  by_cases h : ∃ u ∈ readLinks (encodeStore us), g u = tid
  · rw [removeLink_found_spec g _ tid h]
    rw [readLinks_encodeStore us hclean]
    exact ⟨us.filter (fun u => !(g u == tid)), rfl, hnd.filter _,
      fun x hx => hclean x (List.mem_filter.mp hx).1⟩
  · push_neg at h
    rw [removeLink_not_found g _ tid h]
    exact ⟨us, rfl, hnd, hclean⟩

theorem applyOp_wf (g : Str → Str) (content : Str) (op : LinkOp)
    (hwf : StoreWF content) (hop : OpClean op) : StoreWF (applyOp g content op) := by
  obtain ⟨us, rfl, hnd, hclean⟩ := hwf
  cases op with
  | add u => exact addLink_wf g us u hnd hclean hop
  | addBulk urls => exact addBulkLinks_wf us urls hnd hclean hop.1 hop.2
  | remove tid => exact removeLink_wf g us tid hnd hclean

theorem applyOps_wf (g : Str → Str) (ops : List LinkOp) (content : Str)
    (hwf : StoreWF content) (hops : ∀ op ∈ ops, OpClean op) :
    StoreWF (applyOps g ops content) := by
  induction ops generalizing content with
  | nil => exact hwf
  | cons op rest ih =>
    have h1 : StoreWF (applyOp g content op) :=
      applyOp_wf g content op hwf (hops op (by simp))
    have := ih (applyOp g content op) h1 (fun o ho => hops o (List.mem_cons_of_mem op ho))
    simpa [applyOps, List.foldl_cons] using this

theorem storeWF_empty : StoreWF [] := ⟨[], rfl, List.nodup_nil, by simp⟩

theorem storeWF_lines_nodup (content : Str) (hwf : StoreWF content) :
    (splitNl content).Nodup := by
  obtain ⟨us, rfl, hnd, hclean⟩ := hwf
  cases us with
  | nil => simp [splitNl, splitOnC]
  | cons u us2 =>
    rw [encodeStore_cons, splitNl_joinNl (u :: us2) (by simp)
      (fun x hx => (hclean x hx).2.2)]
    rw [List.nodup_append]
    refine ⟨hnd, by simp, ?_⟩
    intro x hx hx2
    simp at hx2
    rw [hx2] at hx
    exact (hclean [] hx).1 rfl

/-! ### Demultiplexer lemmas -/

theorem demuxLoop_cons8 (now : Str) (b0 b1 b2 b3 b4 b5 b6 b7 : Nat) (rest : List Nat) :
    demuxLoop now (b0 :: b1 :: b2 :: b3 :: b4 :: b5 :: b6 :: b7 :: rest) =
      if u32be b4 b5 b6 b7 ≤ rest.length then
        (frameRecords now b0 (rest.take (u32be b4 b5 b6 b7))
            ++ (demuxLoop now (rest.drop (u32be b4 b5 b6 b7))).1,
         (demuxLoop now (rest.drop (u32be b4 b5 b6 b7))).2)
      else ([], b0 :: b1 :: b2 :: b3 :: b4 :: b5 :: b6 :: b7 :: rest) := by
  simp only [demuxLoop]

theorem demuxLoop_short (now : Str) (buf : List Nat) (h : buf.length < 8) :
    demuxLoop now buf = ([], buf) := by
  match buf with
  | [] => simp [demuxLoop]
  | [a0] => simp [demuxLoop]
  | [a0, a1] => simp [demuxLoop]
  | [a0, a1, a2] => simp [demuxLoop]
  | [a0, a1, a2, a3] => simp [demuxLoop]
  | [a0, a1, a2, a3, a4] => simp [demuxLoop]
  | [a0, a1, a2, a3, a4, a5] => simp [demuxLoop]
  | [a0, a1, a2, a3, a4, a5, a6] => simp [demuxLoop]
  | a0 :: a1 :: a2 :: a3 :: a4 :: a5 :: a6 :: a7 :: rest =>
    simp only [List.length_cons] at h
    omega

theorem demuxLoop_append_of_stop (now : Str) (buf ext : List Nat)
    (h : demuxLoop now buf = ([], buf)) :
    demuxLoop now (buf ++ ext) =
      ((demuxLoop now buf).1 ++ (demuxLoop now ((demuxLoop now buf).2 ++ ext)).1,
       (demuxLoop now ((demuxLoop now buf).2 ++ ext)).2) := by
  rw [h]
  simp

theorem demuxLoop_append (now : Str) (buf ext : List Nat) :
    demuxLoop now (buf ++ ext) =
      ((demuxLoop now buf).1 ++ (demuxLoop now ((demuxLoop now buf).2 ++ ext)).1,
       (demuxLoop now ((demuxLoop now buf).2 ++ ext)).2) := by
  suffices h : ∀ (n : Nat) (buf : List Nat), buf.length ≤ n →
      demuxLoop now (buf ++ ext) =
        ((demuxLoop now buf).1 ++ (demuxLoop now ((demuxLoop now buf).2 ++ ext)).1,
         (demuxLoop now ((demuxLoop now buf).2 ++ ext)).2) from
    h buf.length buf le_rfl
  intro n
  induction n with
  | zero =>
    intro buf hlen
    have : buf = [] := List.length_eq_zero.mp (Nat.le_zero.mp hlen)
    rw [this]
    exact demuxLoop_append_of_stop now [] ext (demuxLoop_short now [] (by simp))
  | succ n ih =>
    intro buf hlen
    match buf with
    | [] => exact demuxLoop_append_of_stop now _ ext (demuxLoop_short now _ (by simp))
    | [a0] => exact demuxLoop_append_of_stop now _ ext (demuxLoop_short now _ (by simp))
    | [a0, a1] => exact demuxLoop_append_of_stop now _ ext (demuxLoop_short now _ (by simp))
    | [a0, a1, a2] =>
      exact demuxLoop_append_of_stop now _ ext (demuxLoop_short now _ (by simp))
    | [a0, a1, a2, a3] =>
      exact demuxLoop_append_of_stop now _ ext (demuxLoop_short now _ (by simp))
    | [a0, a1, a2, a3, a4] =>
      exact demuxLoop_append_of_stop now _ ext (demuxLoop_short now _ (by simp))
    | [a0, a1, a2, a3, a4, a5] =>
      exact demuxLoop_append_of_stop now _ ext (demuxLoop_short now _ (by simp))
    | [a0, a1, a2, a3, a4, a5, a6] =>
      exact demuxLoop_append_of_stop now _ ext (demuxLoop_short now _ (by simp))
    | b0 :: b1 :: b2 :: b3 :: b4 :: b5 :: b6 :: b7 :: rest =>
      have hr : rest.length ≤ n - 7 := by
        simp only [List.length_cons] at hlen
        omega
      by_cases hsz : u32be b4 b5 b6 b7 ≤ rest.length
      · have hlen2 : u32be b4 b5 b6 b7 ≤ (rest ++ ext).length := by
          rw [List.length_append]
          omega
        have hsub : u32be b4 b5 b6 b7 - rest.length = 0 := by omega
        have htake : (rest ++ ext).take (u32be b4 b5 b6 b7)
            = rest.take (u32be b4 b5 b6 b7) := by
          rw [List.take_append_eq_append_take, hsub]
          simp
        have hdrop : (rest ++ ext).drop (u32be b4 b5 b6 b7)
            = rest.drop (u32be b4 b5 b6 b7) ++ ext := by
          rw [List.drop_append_eq_append_drop, hsub]
          simp
        have hih := ih (rest.drop (u32be b4 b5 b6 b7))
          (by simp only [List.length_drop]; omega)
        have e1 := demuxLoop_cons8 now b0 b1 b2 b3 b4 b5 b6 b7 rest
        rw [if_pos hsz] at e1
        have e2 := demuxLoop_cons8 now b0 b1 b2 b3 b4 b5 b6 b7 (rest ++ ext)
        rw [if_pos hlen2] at e2
        simp only [List.cons_append]
        rw [e2, htake, hdrop, hih, e1]
        simp [List.append_assoc]
      · have e1 := demuxLoop_cons8 now b0 b1 b2 b3 b4 b5 b6 b7 rest
        rw [if_neg hsz] at e1
        exact demuxLoop_append_of_stop now _ ext e1

theorem demuxLoop_residual (now : Str) (buf : List Nat) :
    demuxLoop now (demuxLoop now buf).2 = ([], (demuxLoop now buf).2) := by
  have h := demuxLoop_append now buf []
  rw [List.append_nil] at h
  have h1 : (demuxLoop now buf).1
      = (demuxLoop now buf).1 ++ (demuxLoop now ((demuxLoop now buf).2 ++ [])).1 := by
    conv_lhs => rw [h]
  have h2 : (demuxLoop now buf).2 = (demuxLoop now ((demuxLoop now buf).2 ++ [])).2 := by
    conv_lhs => rw [h]
  rw [List.append_nil] at h1 h2
  have h3 : (demuxLoop now (demuxLoop now buf).2).1 = [] := by
    have := congrArg List.length h1
    rw [List.length_append] at this
    have hz : (demuxLoop now (demuxLoop now buf).2).1.length = 0 := by omega
    exact List.length_eq_zero.mp hz
  have := Prod.mk.eta (p := demuxLoop now (demuxLoop now buf).2)
  rw [← this, h3, ← h2]

theorem feedAll_eq_demuxLoop (now : Str) (chunks : List (List Nat)) (buffer : List Nat)
    (hres : demuxLoop now buffer = ([], buffer)) :
    feedAll now buffer chunks = demuxLoop now (buffer ++ chunks.flatten) := by
  induction chunks generalizing buffer with
  | nil =>
    show ([], buffer) = demuxLoop now (buffer ++ List.flatten [])
    rw [show List.flatten ([] : List (List Nat)) = [] from rfl, List.append_nil, hres]
  | cons c cs ih =>
    have hres2 := demuxLoop_residual now (buffer ++ c)
    have hih := ih (demuxLoop now (buffer ++ c)).2 hres2
    show ((demuxLoop now (buffer ++ c)).1 ++ (feedAll now (demuxLoop now (buffer ++ c)).2 cs).1,
          (feedAll now (demuxLoop now (buffer ++ c)).2 cs).2)
        = demuxLoop now (buffer ++ (c :: cs).flatten)
    rw [hih]
    rw [show (c :: cs).flatten = c ++ cs.flatten from rfl]
    rw [← List.append_assoc]
    exact (demuxLoop_append now (buffer ++ c) cs.flatten).symm

/-! ### Append behaviour of readLinks on arbitrary content -/

theorem splitOnC_append_out (sep : Char) (a b : Str) :
    splitOnC sep (a ++ sep :: b) = splitOnC sep a ++ splitOnC sep b := by
  induction a with
  | nil =>
    rw [List.nil_append]
    cases h : splitOnC sep b with
    | nil => exact absurd h (splitOnC_ne_nil sep b)
    | cons l ls => simp [splitOnC, h]
  | cons c rest ih =>
    simp only [List.cons_append, splitOnC, List.append_eq]
    rw [ih]
    cases h : splitOnC sep rest with
    | nil => exact absurd h (splitOnC_ne_nil sep rest)
    | cons l ls =>
      by_cases hc : c = sep <;> simp [splitOnC, h, hc]

theorem splitOnC_no_sep (sep : Char) (a : Str) (ha : sep ∉ a) :
    splitOnC sep a = [a] := by
  induction a with
  | nil => rfl
  | cons c rest ih =>
    have hc : c ≠ sep := fun h => ha (h ▸ List.mem_cons_self c rest)
    have hrest : sep ∉ rest := fun h => ha (List.mem_cons_of_mem c h)
    simp [splitOnC, ih hrest, hc]

theorem readLinks_append_sep (a b : Str) :
    readLinks (a ++ '\n' :: b) = readLinks a ++ readLinks b := by
  unfold readLinks splitNl
  rw [splitOnC_append_out, List.map_append, List.filter_append]

theorem readLinks_nil : readLinks [] = [] := rfl

theorem readLinks_clean_single (u : Str) (hu : CleanUrl u) :
    readLinks (u ++ ['\n']) = [u] := by
  have e : u ++ ['\n'] = u ++ '\n' :: [] := rfl
  rw [e, readLinks_append_sep, readLinks_nil]
  have h1 : readLinks u = [u] := by
    unfold readLinks splitNl
    rw [splitOnC_no_sep '\n' u hu.2.2]
    simp only [List.map_cons, List.map_nil, hu.2.1]
    have hne : u.isEmpty = false := by
      simp [List.isEmpty_iff, hu.1]
    simp [List.filter_cons, hne]
  rw [h1]
  rfl

theorem addLink_readLinks_new (g : Str → Str) (c u : Str)
    (hmem : u ∉ readLinks c) (hu : CleanUrl u) :
    readLinks (addLink g c u).content = readLinks c ++ [u] := by
  rw [addLink_new g c u hmem]
  show readLinks (c ++ appendSep c ++ u ++ ['\n']) = _
  by_cases hce : c.isEmpty
  · have hc : c = [] := by simpa [List.isEmpty_iff] using hce
    subst hc
    have e : ([] : Str) ++ appendSep [] ++ u ++ ['\n'] = u ++ ['\n'] := by
      simp [appendSep]
    rw [e, readLinks_clean_single u hu]
    rfl
  · by_cases hnl : endsWithNl c = true
    · obtain ⟨c2, rfl⟩ : ∃ c2, c = c2 ++ ['\n'] := by
        have : c.getLast? = some '\n' := by
          simpa [endsWithNl] using hnl
        exact List.getLast?_eq_some_iff.mp this
      have hsep : appendSep (c2 ++ ['\n']) = [] := by
        simp [appendSep, hnl]
      rw [hsep]
      have e : c2 ++ ['\n'] ++ [] ++ u ++ ['\n'] = c2 ++ '\n' :: (u ++ ['\n']) := by simp
      rw [e, readLinks_append_sep, readLinks_clean_single u hu]
      have e2 : c2 ++ ['\n'] = c2 ++ '\n' :: [] := rfl
      rw [e2, readLinks_append_sep, readLinks_nil, List.append_nil]
    · have hsep : appendSep c = ['\n'] := by
        simp only [appendSep, Bool.not_eq_true] at *
        rw [if_pos]
        simp [hce, hnl]
      rw [hsep]
      have e : c ++ ['\n'] ++ u ++ ['\n'] = c ++ '\n' :: (u ++ ['\n']) := by simp
      rw [e, readLinks_append_sep, readLinks_clean_single u hu]

/-! ### Status projector lemmas -/

theorem cleanJobsOfEnv_eq_spec (env : List Str) : cleanJobsOfEnv env = cleanJobsSpec env := by
  induction env with
  | nil => rfl
  | cons e rest ih =>
    by_cases h : startsWithL cjKey e = true
    · simp [cleanJobsOfEnv, cleanJobsSpec, List.find?_cons, h]
    · simp only [Bool.not_eq_true] at h
      simp only [cleanJobsOfEnv, cleanJobsSpec, List.find?_cons, h] at *
      simp [ih, cleanJobsSpec, h]

/-! ### Claim theorems -/

/-- C1: feeding any byte sequence to the incremental log framer partitioned
into chunks at arbitrary boundaries (starting from the empty retained
buffer) yields exactly the same ordered record sequence, and the same final
retained remainder, as feeding the whole sequence as a single chunk — and
that record sequence is what the one-shot demuxLogs produces on the
concatenation.  The processing-time clock is the fixed parameter `now`. -/
theorem c1_boundary_independence (now : Str) (chunks : List (List Nat)) :
    feedAll now [] chunks = processLogData now [] chunks.flatten
    ∧ (feedAll now [] chunks).1 = demuxLogs now chunks.flatten := by
  have hres : demuxLoop now [] = ([], []) := demuxLoop_short now [] (by simp)
  have h := feedAll_eq_demuxLoop now chunks [] hres
  constructor
  · rw [h]
    rfl
  · rw [h]
    rfl

/-- C6: a frame whose 8-byte header announces a payload longer than what is
buffered produces no record and is retained in full; feeding the missing
payload bytes afterwards completes the frame and emits exactly its records,
one per payload line that survives the whitespace filter, leaving an empty
remainder. -/
theorem c6_partial_frame_retention (now : Str) (b0 b1 b2 b3 b4 b5 b6 b7 : Nat)
    (p1 p2 : List Nat) (hsize : u32be b4 b5 b6 b7 = p1.length + p2.length)
    (hp2 : p2 ≠ []) :
    processLogData now [] (b0 :: b1 :: b2 :: b3 :: b4 :: b5 :: b6 :: b7 :: p1)
        = ([], b0 :: b1 :: b2 :: b3 :: b4 :: b5 :: b6 :: b7 :: p1)
    ∧ processLogData now (b0 :: b1 :: b2 :: b3 :: b4 :: b5 :: b6 :: b7 :: p1) p2
        = (frameRecords now b0 (p1 ++ p2), [])
    ∧ (frameRecords now b0 (p1 ++ p2)).length = (keptLines (p1 ++ p2)).length := by
  have hp2len : p2.length ≠ 0 := by
    simpa [List.length_eq_zero] using hp2
  have hlt : p1.length < u32be b4 b5 b6 b7 := by omega
  refine ⟨?_, ?_, by simp [frameRecords]⟩
  · show demuxLoop now ([] ++ (b0 :: b1 :: b2 :: b3 :: b4 :: b5 :: b6 :: b7 :: p1)) = _
    rw [List.nil_append, demuxLoop_cons8, if_neg (by omega)]
  · show demuxLoop now ((b0 :: b1 :: b2 :: b3 :: b4 :: b5 :: b6 :: b7 :: p1) ++ p2) = _
    have e : (b0 :: b1 :: b2 :: b3 :: b4 :: b5 :: b6 :: b7 :: p1) ++ p2
        = b0 :: b1 :: b2 :: b3 :: b4 :: b5 :: b6 :: b7 :: (p1 ++ p2) := by simp
    have hfull : u32be b4 b5 b6 b7 = (p1 ++ p2).length := by
      rw [List.length_append]
      omega
    rw [e, demuxLoop_cons8, if_pos (by omega)]
    rw [hfull, List.take_length, List.drop_length]
    rw [demuxLoop_short now [] (by simp)]
    simp

/-- Witness for C6 at a concrete one-frame input: stream tag 1, announced
payload length 2, payload split as one byte now and one byte later. -/
theorem c6_partial_frame_retention_witness :
    (u32be 0 0 0 2 = ([97] : List Nat).length + ([98] : List Nat).length
      ∧ ([98] : List Nat) ≠ [])
    ∧ (processLogData [] [] (1 :: 0 :: 0 :: 0 :: 0 :: 0 :: 0 :: 2 :: [97])
          = ([], 1 :: 0 :: 0 :: 0 :: 0 :: 0 :: 0 :: 2 :: [97])
       ∧ processLogData [] (1 :: 0 :: 0 :: 0 :: 0 :: 0 :: 0 :: 2 :: [97]) [98]
          = (frameRecords [] 1 ([97] ++ [98]), [])
       ∧ (frameRecords [] 1 ([97] ++ [98])).length = (keptLines ([97] ++ [98])).length) :=
  ⟨⟨by decide, by decide⟩,
    c6_partial_frame_retention [] 1 0 0 0 0 0 0 2 [97] [98] (by decide) (by decide)⟩

/-- C2 counterexample: with the pipeline observed running but with no
startedAt and a truthy finishedAt, the code projects lastRunAt = finishedAt
although neither of the claim's two table rows applies (the claim says
absent); and with the environment containing a malformed CLEAN_JOBS entry
before a well-formed `CLEAN_JOBS=5`, the code projects no cleanJobs although
the environment does contain `CLEAN_JOBS=<int>`. -/
theorem c2_counterexample :
    (getCurrentStatus ⟨.running, .noHealth, none, some ['t']⟩
        ⟨.running, .healthy, none, none⟩ ⟨.running, .healthy, none, none⟩
        (some [cjKey ++ ['x'], cjKey ++ ['5']]) [] []).lastRunAt = some ['t']
    ∧ lastRunAtClaimed ⟨.running, .noHealth, none, some ['t']⟩ = none
    ∧ (getCurrentStatus ⟨.running, .noHealth, none, some ['t']⟩
        ⟨.running, .healthy, none, none⟩ ⟨.running, .healthy, none, none⟩
        (some [cjKey ++ ['x'], cjKey ++ ['5']]) [] []).cleanJobs = none
    ∧ (cjKey ++ ['5']) ∈ [cjKey ++ ['x'], cjKey ++ ['5']]
    ∧ jsParseInt ['5'] = some 5
    ∧ (getCurrentStatus ⟨.running, .noHealth, none, some ['t']⟩
        ⟨.running, .healthy, none, none⟩ ⟨.running, .healthy, none, none⟩
        (some [cjKey ++ ['x'], cjKey ++ ['5']]) [] []).lastRunAt
        ≠ lastRunAtClaimed ⟨.running, .noHealth, none, some ['t']⟩ := by
  refine ⟨by decide, by decide, by decide, by decide, by decide, by decide⟩

/-- C2 (amended): for every combination of the three container observations
and every optional environment, the projected snapshot agrees with the
amended section 4.2 table: vpn and tor exactly as claimed; lastRunAt is
startedAt when the pipeline runs with a truthy startedAt and otherwise falls
back to any truthy finishedAt (also while running); cleanJobs comes from the
first environment entry starting with CLEAN_JOBS=, via parseInt of the text
after the first equals sign, and is absent when that parse is NaN, no entry
matches, or the env inspect fails. -/
theorem c2_status_projection_amended (p v t : ContainerInfo)
    (env : Option (List Str)) (cn ver : Str) :
    getCurrentStatus p v t env cn ver = statusSpecTable p v t env cn ver := by
  have hvpn : (if v.state = .running then
        if v.health = .healthy ∨ v.health = .noHealth then UpDown.up else UpDown.down
      else if v.state = .stopped then UpDown.down else UpDown.unknown) = vpnSpec v := by
    cases hv : v.state <;> cases hh : v.health <;> simp [vpnSpec, hv, hh]
  have htor : (if t.state = .running then UpDown.up
      else if t.state = .stopped then UpDown.down else UpDown.unknown) = torSpec t := by
    cases ht : t.state <;> simp [torSpec, ht]
  have hcj : (match env with
      | none => (none : Option Int)
      | some es => cleanJobsOfEnv es) = (match env with
      | none => (none : Option Int)
      | some es => cleanJobsSpec es) := by
    cases env with
    | none => rfl
    | some es => exact cleanJobsOfEnv_eq_spec es
  simp only [getCurrentStatus, statusSpecTable]
  rw [hvpn, htor, hcj]
  rfl

/-- C9: container start and stop are effect-idempotent at the engine
interface: the engine start command is issued exactly when inspect reports
not running, the engine stop command (grace timeout 10 seconds) exactly when
inspect reports running; in the already-target state the call succeeds with
no engine command. -/
theorem c9_start_stop_idempotent (name : Str) :
    startContainer name (some true) = some []
    ∧ startContainer name (some false) = some [.start name]
    ∧ stopContainer name (some true) = some [.stop name 10]
    ∧ stopContainer name (some false) = some [] :=
  ⟨rfl, rfl, rfl, rfl⟩

/-- C3 counterexample: from the reachable empty store, one bulk add whose
input repeats the same url produces an artifact carrying that url on two
lines — addBulkLinks deduplicates only against the current contents, not
within its input — and even reports two created lines. -/
theorem c3_counterexample :
    (addBulkLinks [] [['b'], ['b']]).content = ['b', '\n', 'b', '\n']
    ∧ ¬ (splitNl (addBulkLinks [] [['b'], ['b']]).content).Nodup
    ∧ applyOps (fun u => u) [.addBulk [['b'], ['b']]] [] = ['b', '\n', 'b', '\n']
    ∧ (addBulkLinks [] [['b'], ['b']]).created = 2 :=
  ⟨by decide, by decide, by decide, by decide⟩

/-- C3 (amended): for every hash function and every operation sequence whose
single adds carry clean URLs and whose bulk adds carry duplicate-free lists
of clean URLs, the artifact reachable from the empty store never holds two
identical lines: both the raw line list and the parsed URL list are
duplicate-free. -/
theorem c3_uniqueness_amended (g : Str → Str) (ops : List LinkOp)
    (hops : ∀ op ∈ ops, OpClean op) :
    (splitNl (applyOps g ops [])).Nodup ∧ (readLinks (applyOps g ops [])).Nodup := by
  have hwf := applyOps_wf g ops [] storeWF_empty hops
  refine ⟨storeWF_lines_nodup _ hwf, ?_⟩
  obtain ⟨us, heq, hnd, hclean⟩ := hwf
  rw [heq, readLinks_encodeStore us hclean]
  exact hnd

/-- Witness for C3 (amended) on a concrete clean operation sequence. -/
theorem c3_uniqueness_amended_witness :
    (∀ op ∈ [LinkOp.add ['a'], LinkOp.addBulk [['b'], ['c']], LinkOp.remove ['a']],
        OpClean op)
    ∧ ((splitNl (applyOps (fun u => u)
          [LinkOp.add ['a'], LinkOp.addBulk [['b'], ['c']], LinkOp.remove ['a']] [])).Nodup
       ∧ (readLinks (applyOps (fun u => u)
          [LinkOp.add ['a'], LinkOp.addBulk [['b'], ['c']], LinkOp.remove ['a']] [])).Nodup) :=
  ⟨by decide, c3_uniqueness_amended (fun u => u) _ (by decide)⟩

/-- C4 counterexample: connection 0 last received the up-snapshot, yet a
recomputation for connection 0 producing the (different) down-snapshot
pushes nothing, because the shared router-level lastStatus was meanwhile
overwritten by connection 1's seed push.  Whether a push happens therefore
does not depend only on the receiving connection's own last pushed value. -/
theorem c4_counterexample :
    lastPushedTo
        (openStream (openStream ⟨none, []⟩ 0 ⟨.running, [], .up, .up, none, none, []⟩) 1
          ⟨.running, [], .down, .up, none, none, []⟩) 0
      = some ⟨.running, [], .up, .up, none, none, []⟩
    ∧ (⟨.running, [], .up, .up, none, none, []⟩ : Status)
        ≠ ⟨.running, [], .down, .up, none, none, []⟩
    ∧ (recomputeStatus
        (openStream (openStream ⟨none, []⟩ 0 ⟨.running, [], .up, .up, none, none, []⟩) 1
          ⟨.running, [], .down, .up, none, none, []⟩) 0
        ⟨.running, [], .down, .up, none, none, []⟩).pushes
      = (openStream (openStream ⟨none, []⟩ 0 ⟨.running, [], .up, .up, none, none, []⟩) 1
          ⟨.running, [], .down, .up, none, none, []⟩).pushes :=
  ⟨by decide, by decide, by decide⟩

/-- C4 (amended): all streaming connections share one router-level
last-pushed snapshot; a recomputation pushes to the triggering connection
exactly when the recomputed snapshot differs from that shared value, so two
consecutive identical recomputations — on whichever connections — push
exactly one snapshot in total, and the second is a complete no-op. -/
theorem c4_shared_suppression_amended (st : StreamState) (a b : Nat) (s : Status) :
    recomputeStatus (recomputeStatus st a s) b s = recomputeStatus st a s
    ∧ (recomputeStatus st a s).pushes.length
        = st.pushes.length + (if st.lastStatus = some s then 0 else 1) := by
  constructor
  · by_cases h : st.lastStatus = some s
    · have h1 : recomputeStatus st a s = st := by simp [recomputeStatus, h]
      rw [h1]
      simp [recomputeStatus, h]
    · have h1 : recomputeStatus st a s = ⟨some s, st.pushes ++ [(a, s)]⟩ := by
        simp [recomputeStatus, h]
      rw [h1]
      simp [recomputeStatus]
  · by_cases h : st.lastStatus = some s
    · simp [recomputeStatus, h]
    · simp [recomputeStatus, h]

/-- C5 counterexample: the url `"a "` (trailing space) added twice to the
empty store is written twice — the duplicate check compares the candidate
against trimmed stored lines — so the stored line count grows by two, and on
the second call the line `"a "` is present verbatim in the artifact yet a
write still happens. -/
theorem c5_counterexample :
    (addLink (fun u => u) (addLink (fun u => u) [] ['a', ' ']).content ['a', ' ']).wrote
      = true
    ∧ ['a', ' '] ∈ splitNl (addLink (fun u => u) [] ['a', ' ']).content
    ∧ (readLinks (addLink (fun u => u)
          (addLink (fun u => u) [] ['a', ' ']).content ['a', ' ']).content).length
        = (readLinks ([] : Str)).length + 2 :=
  ⟨by decide, by decide, by decide⟩

/-- C5 (amended): for clean URLs, add is idempotent: it always returns the
pure content hash `generateId u`; when the url is already stored (as the
store parses it) it returns without writing and leaves the content
untouched; and a second add right after a first one never writes and leaves
the stored line count at most one above the original. -/
theorem c5_idempotent_add_amended (g : Str → Str) (c u : Str) (hu : CleanUrl u) :
    (addLink g c u).id = g u
    ∧ (u ∈ readLinks c → addLink g c u = ⟨g u, false, c, false⟩)
    ∧ (addLink g (addLink g c u).content u).wrote = false
    ∧ (readLinks (addLink g (addLink g c u).content u).content).length
        ≤ (readLinks c).length + 1 := by
  by_cases hmem : u ∈ readLinks c
  · have h1 := addLink_mem g c u hmem
    have hc1 : (addLink g c u).content = c := by rw [h1]
    refine ⟨addLink_id g c u, fun _ => h1, ?_, ?_⟩
    · rw [hc1, h1]
    · rw [hc1, hc1]
      omega
  · have hr1 : readLinks (addLink g c u).content = readLinks c ++ [u] :=
      addLink_readLinks_new g c u hmem hu
    have hmem2 : u ∈ readLinks (addLink g c u).content := by
      rw [hr1]
      simp
    have h2 := addLink_mem g _ u hmem2
    have hc2 : (addLink g (addLink g c u).content u).content
        = (addLink g c u).content := by rw [h2]
    refine ⟨addLink_id g c u, fun hm => absurd hm hmem, ?_, ?_⟩
    · rw [h2]
    · rw [hc2, hr1, List.length_append]
      simp

/-- Witness for C5 (amended) at a clean concrete url. -/
theorem c5_idempotent_add_amended_witness :
    CleanUrl ['a']
    ∧ ((addLink (fun u => u) [] ['a']).id = (fun u : Str => u) ['a']
       ∧ (['a'] ∈ readLinks [] →
            addLink (fun u => u) [] ['a'] = ⟨(fun u : Str => u) ['a'], false, [], false⟩)
       ∧ (addLink (fun u => u) (addLink (fun u => u) [] ['a']).content ['a']).wrote = false
       ∧ (readLinks (addLink (fun u => u)
            (addLink (fun u => u) [] ['a']).content ['a']).content).length
           ≤ (readLinks ([] : Str)).length + 1) :=
  ⟨by decide, c5_idempotent_add_amended (fun u => u) [] ['a'] (by decide)⟩

/-- C7: removing an id that matches no stored url's recomputed hash reports
not-found, performs no write and leaves the artifact byte-for-byte
unchanged; removing a matching id succeeds, writes, and the stored URLs of
the new artifact are exactly the old ones with the matching line omitted. -/
theorem c7_remove_unknown (g : Str → Str) (c tid : Str) :
    ((∀ u ∈ readLinks c, g u ≠ tid) → removeLink g c tid = ⟨false, c, false⟩)
    ∧ ((∃ u ∈ readLinks c, g u = tid) →
        (removeLink g c tid).found = true ∧ (removeLink g c tid).wrote = true ∧
        readLinks (removeLink g c tid).content
          = (readLinks c).filter (fun u => !(g u == tid))) := by
  constructor
  · intro h
    exact removeLink_not_found g c tid h
  · intro h
    rw [removeLink_found_spec g c tid h]
    refine ⟨rfl, rfl, ?_⟩
    exact readLinks_encodeStore _
      (fun x hx => readLinks_clean c x (List.mem_filter.mp hx).1)

/-- Witness for C7 with a one-entry store and a foreign id. -/
theorem c7_remove_unknown_witness :
    (∀ u ∈ readLinks ['a', '\n'], (fun u : Str => u) u ≠ ['b'])
    ∧ removeLink (fun u => u) ['a', '\n'] ['b'] = ⟨false, ['a', '\n'], false⟩ :=
  ⟨by decide, (c7_remove_unknown (fun u => u) ['a', '\n'] ['b']).1 (by decide)⟩

/-- C8: closing a push connection is idempotent — any number of further
close calls leaves the state of the first close unchanged — the heartbeat
timer is discarded exactly once (the clear counter of a fresh connection
ends at one however often close is called), and no keepalive ping is emitted
by a heartbeat firing after close. -/
theorem c8_close_idempotent (c : SSEConn) (n : Nat) :
    closeN n (close c) = close c
    ∧ heartbeatFire (close c) = close c
    ∧ (close connInit).clears = connInit.clears + 1 := by
  have hclose2 : close (close c) = close c := by
    by_cases h : c.isClosed
    · simp [close, h]
    · simp [close, h]
  refine ⟨?_, ?_, by decide⟩
  · induction n with
    | zero => rfl
    | succ n ih =>
      show close (closeN n (close c)) = close c
      rw [ih, hclose2]
  · by_cases h : c.isClosed
    · have he : close c = c := by simp [close, h]
      rw [he]
      simp [heartbeatFire, h]
    · have he : close c
          = ⟨true, c.heartbeatSet, false,
              c.clears + (if c.heartbeatSet then 1 else 0), c.pings⟩ := by
        simp [close, h]
      rw [he]
      simp [heartbeatFire]

/-- C10: a successful remove deletes every stored line whose recomputed hash
equals the target id — no parsed url of the rewritten artifact still hashes
to it — so an immediately repeated remove of the same id reports not-found
and does not touch the artifact. -/
theorem c10_remove_all (g : Str → Str) (c tid : Str)
    (h : ∃ u ∈ readLinks c, g u = tid) :
    (∀ u ∈ readLinks (removeLink g c tid).content, g u ≠ tid)
    ∧ removeLink g (removeLink g c tid).content tid
        = ⟨false, (removeLink g c tid).content, false⟩ := by
  have hspec := removeLink_found_spec g c tid h
  have hread : readLinks (removeLink g c tid).content
      = (readLinks c).filter (fun u => !(g u == tid)) := by
    rw [hspec]
    exact readLinks_encodeStore _
      (fun x hx => readLinks_clean c x (List.mem_filter.mp hx).1)
  have hall : ∀ u ∈ readLinks (removeLink g c tid).content, g u ≠ tid := by
    intro u hu
    rw [hread] at hu
    have h2 := (List.mem_filter.mp hu).2
    simpa using h2
  exact ⟨hall, removeLink_not_found g _ tid hall⟩

/-- Witness for C10: a store holding two urls and a constant hash, so the
removed id matches both lines at once. -/
theorem c10_remove_all_witness :
    (∃ u ∈ readLinks ['a', '\n', 'b', '\n'], (fun _ : Str => ['i']) u = ['i'])
    ∧ ((∀ u ∈ readLinks (removeLink (fun _ => ['i']) ['a', '\n', 'b', '\n'] ['i']).content,
          (fun _ : Str => ['i']) u ≠ ['i'])
       ∧ removeLink (fun _ => ['i'])
            (removeLink (fun _ => ['i']) ['a', '\n', 'b', '\n'] ['i']).content ['i']
          = ⟨false, (removeLink (fun _ => ['i']) ['a', '\n', 'b', '\n'] ['i']).content,
              false⟩) :=
  ⟨by decide, c10_remove_all (fun _ => ['i']) ['a', '\n', 'b', '\n'] ['i'] (by decide)⟩
